import Mathlib

/-!
Verification of the msys2-install-packages-pinned resolution core.

The TypeScript source (`helper.ts`, embedded in `src/tests.js`) is shallowly
embedded here.  JavaScript strings are modelled as `List Char`; JavaScript
numbers produced by `parseInt` on decimal digit runs are modelled as `Nat`
(every value relevant to the claims is far below 2^53, where JS arithmetic
on integers is exact); code that can `throw` is modelled in `Except Err`.

The module-level object `DEFAULT_SETTINGS` is mutable shared state in the
source (`parseSettings` writes through an alias to it), so every function
that can read or write it takes the current value of that object and
returns the updated value.
-/

namespace MsysPin

/-- Strings of the source are lists of characters. -/
abbrev Str := List Char

deriving instance DecidableEq for Except

/-- The `MSystem` union type of the source. -/
inductive MSystem
  | mingw32
  | mingw64
  | ucrt64
  | clang64
  | clangarm64
deriving DecidableEq

/-- `interface Version`: four non-negative integers. -/
structure Version where
  major : Nat
  minor : Nat
  patch : Nat
  rev : Nat
deriving DecidableEq

/-- `interface PartialVersion`: up to four optional fields.  The source never
stores `null` (only absent fields or numbers), so one `Option` layer suffices. -/
structure PartialVersion where
  major : Option Nat := none
  minor : Option Nat := none
  patch : Option Nat := none
  rev : Option Nat := none
deriving DecidableEq

/-- `interface Content`: the parsed pieces of an artifact file name. -/
structure Content where
  name : Str
  version : Version
  target : Str
  ext : Str
deriving DecidableEq

/-- `interface RawPackage`.  The TS type declares `parsedContent : Content`
(non-null); `extractPackages` only ever pushes entries with parsed content,
so the defensive `=== null` re-checks inside the resolver are dead code under
the declared types and are elided here. -/
structure RawPackage where
  fullName : Str
  parsedContent : Content
  fullUrl : Str
deriving DecidableEq

/-- `type ResolvedPackage = ResolvedPackageNormal | ResolvedPackageVirtual`. -/
inductive ResolvedPackage
  | normal (name : Str) (parsedVersion : Version) (fullUrl : Str)
  | virtual (name : Str)
deriving DecidableEq

/-- The union `PartialVersion | RequestedVersion` the source threads through
the `partialVersion` field; `requestedSameAsRest` is the tagged object
`{type: "requested", classification: "same_as_rest"}` produced for `"!"`. -/
inductive ReqVersion
  | pv (p : PartialVersion)
  | requestedSameAsRest
deriving DecidableEq

/-- `type RequestedPackage = RequestedPackageNormal | RequestedPackageVirtual`. -/
inductive RequestedPackage
  | normal (names : List Str) (originalName : Str) (partialVersion : ReqVersion)
  | virtual (name : Str)
deriving DecidableEq

/-- `interface PackageResolveSettings`.  The source field `prependPrefix` is
called `prependPfx` here. -/
structure PackageResolveSettings where
  virtual : Bool
  prependPfx : Bool
deriving DecidableEq

/-- `interface PackageInput`. -/
structure PackageInput where
  name : Str
  partialVersion : ReqVersion
  settings : PackageResolveSettings
deriving DecidableEq

/-- `type Matcher = EqMatcher | AnyMatcher`. -/
inductive Matcher
  | eq (data : Nat)
  | any
deriving DecidableEq

/-- The error taxonomy: one constructor per distinct `throw new Error(...)`
site of the source that the claims are about. -/
inductive Err
  | notAnInteger (s : Str)                       -- parseIntSafe
  | malformedVersionSpec (s : Str)               -- parsePartialVersion
  | invalidSettingsChar (c : Char)               -- parseSettings
  | tooManyEq                                    -- resolvePackageString, '=' split
  | tooManyColon                                 -- resolvePackageString, ':' split
  | malformedCatalogDoc                          -- extractPackages parseAssert
  | noPriorVersion (originalName : Str)          -- marker with no prior versions
  | inconsistentSiblings (versions : List Version)
  | noSuitablePackage (originalName : Str)
deriving DecidableEq

/-- `parseIntSafe`: `parseInt` followed by a NaN check.  Every call site
passes a `\d*` regex capture, i.e. a (possibly empty) decimal digit run;
on such inputs JS `parseInt` returns the value of the leading digit run and
is NaN exactly when that run is empty. -/
def digitsToNat (s : Str) : Nat :=
  s.foldl (fun n c => 10 * n + (c.toNat - 48)) 0

def parseIntSafe (inp : Str) : Except Err Nat :=
  let run := inp.takeWhile Char.isDigit
  if run.isEmpty then .error (.notAnInteger inp) else .ok (digitsToNat run)

/-- `span p l = (takeWhile p l, dropWhile p l)`: one maximal-munch step of a
regex character-class star. -/
def span (p : Char → Bool) (l : Str) : Str × Str :=
  (l.takeWhile p, l.dropWhile p)

/-- Maximal run of `p`-characters followed by the mandatory literal `lit`
(which must not satisfy `p` at any use site, so regex backtracking cannot
choose a shorter run): one `(cls*)lit` step of the source regexes. -/
def spanThen (p : Char → Bool) (lit : Char) (r : Str) : Option (Str × Str) :=
  match span p r with
  | (x, y :: rest) => if y = lit then some (x, rest) else none
  | (_, []) => none

/-- The captures of `/^(.*)\-(?:(\d*)\.(\d*)\.(\d*)\-(\d*))\-([^.]*)\.(.*)$/`
used by `parseContentFrom`. -/
structure ArtifactCaps where
  major : Str
  minor : Str
  patch : Str
  rev : Str
  target : Str
  ext : Str
deriving DecidableEq

/-- JS `.` without the `s` flag: matches any character *except* a
LineTerminator (U+000A, U+000D, U+2028, U+2029).  Negated classes such as
`[^.]` are unaffected and do match line terminators. -/
def regexDot (c : Char) : Bool :=
  !(c = '\n' || c = '\r' || c = '\u2028' || c = '\u2029')

/-- The part of the artifact-name regex after the first `\-`:
`(\d*)\.(\d*)\.(\d*)\-(\d*)\-([^.]*)\.(.*)$`.  Each starred class is
followed by a literal outside the class, so the regex engine's
backtracking is vacuous and matching is deterministic left-to-right.
The final `(.*)$` matches exactly when the remainder contains no line
terminator (`.` cannot consume one and `$` only matches at the very end),
and then captures the whole remainder. -/
def tailMatch (r : Str) : Option ArtifactCaps :=
  (spanThen Char.isDigit '.' r).bind fun (a, r1) =>
  (spanThen Char.isDigit '.' r1).bind fun (b, r2) =>
  (spanThen Char.isDigit '-' r2).bind fun (c, r3) =>
  (spanThen Char.isDigit '-' r3).bind fun (d, r4) =>
  (spanThen (fun ch => ch != '.') '.' r4).bind fun (t, e) =>
  if e.all regexDot then some ⟨a, b, c, d, t, e⟩ else none

/-- The whole artifact-name regex.  The leading greedy `(.*)` takes the
longest prefix that is followed by `-` and a matching tail, i.e. the
split happens at the rightmost `-` whose tail matches.  `(.*)` can only
consume characters matched by `.`, and a line terminator can never be
consumed by the literal `\-` either, so no match survives past one: the
split search stops at the first line terminator. -/
def matchArtifactName (s : Str) : Option (Str × ArtifactCaps) :=
  match s with
  | [] => none
  | ch :: rest =>
    if regexDot ch then
      match matchArtifactName rest with
      | some (p, caps) => some (ch :: p, caps)
      | none =>
        if ch = '-' then (tailMatch rest).map (fun caps => ([], caps)) else none
    else none

/-- `parseContentFrom`: regex match (`null` on no match, modelled `.ok none`),
then `parseIntSafe` on the four version captures (which `throw`s when a
capture is empty). -/
def parseContentFrom (inpName : Str) : Except Err (Option Content) :=
  match matchArtifactName inpName with
  | none => .ok none
  | some (pkgName, caps) => do
    let major ← parseIntSafe caps.major
    let minor ← parseIntSafe caps.minor
    let patch ← parseIntSafe caps.patch
    let rev ← parseIntSafe caps.rev
    .ok (some { name := pkgName, version := ⟨major, minor, patch, rev⟩,
                target := caps.target, ext := caps.ext })

/-- One `<a>` element of the directory listing.  HTML parsing and
percent-decoding are external collaborators: an entry carries the raw
`href` attribute and its percent-decoded form as given. -/
structure LinkEntry where
  href : Str
  decoded : Str
deriving DecidableEq

/-- `interface ExtractedPackagesErrors`; a skipped item is `(name, reason)`. -/
structure ExtractedErrors where
  skipped : List (Str × Str)
  failed : List Str
deriving DecidableEq

/-- `interface ExtractedPackagesReturnValue`. -/
structure ExtractedReturn where
  errors : ExtractedErrors
  packages : List RawPackage
deriving DecidableEq

/-- The body of the `for (const packageElement of packageElements)` loop of
`extractPackages`, applied to the remaining entries.  A `throw` escaping
from `parseContentFrom` aborts the whole loop, exactly as in the source. -/
def extractLoop (repoLink : Str) : List LinkEntry → Except Err (List (Str × Str) × List Str × List RawPackage)
  | [] => .ok ([], [], [])
  | e :: es =>
    let linkName := e.decoded
    if (".sig".toList).isSuffixOf linkName then
      (extractLoop repoLink es).map fun (sk, fl, pk) => ((linkName, "sig package".toList) :: sk, fl, pk)
    else if (".db".toList).isSuffixOf linkName then
      (extractLoop repoLink es).map fun (sk, fl, pk) => ((linkName, ".db file".toList) :: sk, fl, pk)
    else if (".old".toList).isSuffixOf linkName then
      (extractLoop repoLink es).map fun (sk, fl, pk) => ((linkName, ".old file".toList) :: sk, fl, pk)
    else if linkName = "../".toList then
      (extractLoop repoLink es).map fun (sk, fl, pk) => ((linkName, "directory file".toList) :: sk, fl, pk)
    else
      match parseContentFrom linkName with
      | .error err => .error err
      | .ok none => (extractLoop repoLink es).map fun (sk, fl, pk) => (sk, linkName :: fl, pk)
      | .ok (some parsedContent) =>
        (extractLoop repoLink es).map fun (sk, fl, pk) =>
          (sk, fl, { fullName := linkName, fullUrl := repoLink ++ e.href,
                     parsedContent := parsedContent } :: pk)

/-- `extractPackages`.  The document is the result of locating the `pre`
element and enumerating its links: `none` when the `pre` element is missing
(`parseAssert` throws), otherwise the list of link entries. -/
def extractPackages (repoLink : Str) (doc : Option (List LinkEntry)) :
    Except Err ExtractedReturn :=
  match doc with
  | none => .error .malformedCatalogDoc
  | some entries =>
    (extractLoop repoLink entries).map fun (sk, fl, pk) =>
      { errors := { skipped := sk, failed := fl }, packages := pk }

/-- `const EMPTY_PARTIAL_VERSION: PartialVersion = {}`. -/
def EMPTY_PARTIAL_VERSION : PartialVersion := {}

/-- The initial value of the module-level `DEFAULT_SETTINGS` object. -/
def DEFAULT_SETTINGS : PackageResolveSettings :=
  { prependPfx := true, virtual := false }

/-- The `for (const char of str)` loop of `parseSettings`, writing through
the alias `settings` into the module-level object. -/
def parseSettingsLoop : Str → PackageResolveSettings → Except Err PackageResolveSettings
  | [], st => .ok st
  | c :: rest, st =>
    if c = 'v' then parseSettingsLoop rest { st with virtual := true }
    else if c = 'n' then parseSettingsLoop rest { st with prependPfx := false }
    else .error (.invalidSettingsChar c)

/-- `parseSettings`.  `const settings = DEFAULT_SETTINGS` aliases the
module-level object, so the function both returns the mutated settings and
leaves them behind as the new value of `DEFAULT_SETTINGS`: the result is
`(returned settings, new global)` and the two components are equal. -/
def parseSettings (str : Str) (g : PackageResolveSettings) :
    Except Err (PackageResolveSettings × PackageResolveSettings) :=
  (parseSettingsLoop str g).map fun st => (st, st)

/-- The captures of `/^(\d*)(?:\.(\d*)(?:\.(\d*)(?:\-(\d*))?)?)?$/`:
group 1 always participates, groups 2-4 are optional. -/
structure PartialCaps where
  major : Str
  minor : Option Str
  patch : Option Str
  rev : Option Str
deriving DecidableEq

/-- The partial-version regex.  Every starred digit class is followed either
by a literal (`.` or `-`, not digits) or by the anchor, and skipping an
optional group requires the rest of the input to be empty while entering it
requires its leading literal, so matching is deterministic. -/
def matchPartialVersion (s : Str) : Option PartialCaps :=
  let (a, r1) := span Char.isDigit s
  match r1 with
  | [] => some ⟨a, none, none, none⟩
  | '.' :: r1a =>
    let (b, r2) := span Char.isDigit r1a
    match r2 with
    | [] => some ⟨a, some b, none, none⟩
    | '.' :: r2a =>
      let (c, r3) := span Char.isDigit r2a
      match r3 with
      | [] => some ⟨a, some b, some c, none⟩
      | '-' :: r3a =>
        let (d, r4) := span Char.isDigit r3a
        match r4 with
        | [] => some ⟨a, some b, some c, some d⟩
        | _ => none
      | _ => none
    | _ => none
  | _ => none

/-- `if (minor !== undefined) version.minor = parseIntSafe(minor)` etc. -/
def parseOptCap : Option Str → Except Err (Option Nat)
  | none => .ok none
  | some s => (parseIntSafe s).map some

/-- `parsePartialVersion`. -/
def parsePartialVersion (inpName : Str) : Except Err ReqVersion :=
  if inpName = "!".toList then .ok .requestedSameAsRest
  else if inpName = [] then .ok (.pv EMPTY_PARTIAL_VERSION)
  else
    match matchPartialVersion inpName with
    | none => .error (.malformedVersionSpec inpName)
    | some caps => do
      let mj ← parseIntSafe caps.major
      let mn ← parseOptCap caps.minor
      let pt ← parseOptCap caps.patch
      let rv ← parseOptCap caps.rev
      .ok (.pv ⟨some mj, mn, pt, rv⟩)

/-- JS `String.prototype.split` with a single-character separator. -/
def splitOnChar (sep : Char) : Str → List Str
  | [] => [[]]
  | c :: rest =>
    let r := splitOnChar sep rest
    if c = sep then [] :: r
    else
      match r with
      | h :: t => (c :: h) :: t
      | [] => [[c]]

/-- `resolvePackageString`, threading the `DEFAULT_SETTINGS` object.  A token
without `=` (and one with `=` but without `:`) keeps `result.settings` as a
reference to the module-level object, i.e. the current global value. -/
def resolvePackageString (packageStr : Str) (g : PackageResolveSettings) :
    Except Err (PackageInput × PackageResolveSettings) :=
  if packageStr.contains '=' then
    match splitOnChar '=' packageStr with
    | [name1, restStr] =>
      if restStr.contains ':' then
        match splitOnChar ':' restStr with
        | [version1, settingsStr] => do
          let v ← parsePartialVersion version1
          (parseSettings settingsStr g).map fun (st, g2) =>
            ({ name := name1, partialVersion := v, settings := st }, g2)
        | _ => .error .tooManyColon
      else
        (parsePartialVersion restStr).map fun v =>
          ({ name := name1, partialVersion := v, settings := g }, g)
    | _ => .error .tooManyEq
  else
    .ok ({ name := packageStr, partialVersion := .pv EMPTY_PARTIAL_VERSION, settings := g }, g)

/-- `getArchNameFromMSystem`. -/
def getArchNameFromMSystem : MSystem → Str
  | .mingw32 => "i686".toList
  | .mingw64 => "x86_64".toList
  | .ucrt64 => "ucrt-x86_64".toList
  | .clang64 => "clang-x86_64".toList
  | .clangarm64 => "clang-aarch64".toList

/-- The template literal `` `mingw-w64-${archName}` `` computed inside
`resolveVirtualName` and `resolveNamesFromUserInputName`. -/
def msysPfx (msystem : MSystem) : Str :=
  "mingw-w64-".toList ++ getArchNameFromMSystem msystem

/-- `resolveVirtualName`. -/
def resolveVirtualName (input : Str) (msystem : MSystem) (prependPfx : Bool) : Str :=
  let pfx := msysPfx msystem
  if pfx.isPrefixOf input then input
  else if prependPfx then pfx ++ '-' :: input
  else input

/-- `resolveNamesFromUserInputName`. -/
def resolveNamesFromUserInputName (input : Str) (msystem : MSystem) (prependPfx : Bool) :
    List Str :=
  let pfx := msysPfx msystem
  if pfx.isPrefixOf input then [input]
  else if !prependPfx then [input]
  else [input, pfx ++ '-' :: input]

/-- The `rawPackages.map((inp) => ...)` callback of `resolveRequestedPackages`
applied to each token in order, threading the `DEFAULT_SETTINGS` object. -/
def mapTokens (msystem : MSystem) : List Str → PackageResolveSettings →
    Except Err (List RequestedPackage × PackageResolveSettings)
  | [], g => .ok ([], g)
  | tok :: rest, g => do
    let (packageInput, g1) ← resolvePackageString tok g
    let pkg : RequestedPackage :=
      if packageInput.settings.virtual then
        .virtual (resolveVirtualName packageInput.name msystem packageInput.settings.prependPfx)
      else
        .normal (resolveNamesFromUserInputName packageInput.name msystem
                  packageInput.settings.prependPfx)
          packageInput.name packageInput.partialVersion
    let (pkgs, g2) ← mapTokens msystem rest g1
    .ok (pkg :: pkgs, g2)

/-- `resolveRequestedPackages`: split one line on single spaces and parse
each token. -/
def resolveRequestedPackages (spec : Str) (msystem : MSystem)
    (g : PackageResolveSettings) :
    Except Err (List RequestedPackage × PackageResolveSettings) :=
  mapTokens msystem (splitOnChar ' ' spec) g

/-- `input.replace(/\r/g, "\n")`. -/
def replaceCR (s : Str) : Str :=
  s.map fun c => if c = '\r' then '\n' else c

/-- `.replace(/\n\n/g, "\n")`: left-to-right, non-overlapping. -/
def collapseNN : Str → Str
  | '\n' :: '\n' :: rest => '\n' :: collapseNN rest
  | c :: rest => c :: collapseNN rest
  | [] => []

/-- The `specs.map(...)` of `resolveRequestedPackageSpecs`, threading the
`DEFAULT_SETTINGS` object across lines. -/
def mapLines (msystem : MSystem) : List Str → PackageResolveSettings →
    Except Err (List (List RequestedPackage) × PackageResolveSettings)
  | [], g => .ok ([], g)
  | line :: rest, g => do
    let (pkgs, g1) ← resolveRequestedPackages line msystem g
    let (pkgss, g2) ← mapLines msystem rest g1
    .ok (pkgs :: pkgss, g2)

/-- `resolveRequestedPackageSpecs`. -/
def resolveRequestedPackageSpecs (input : Str) (msystem : MSystem)
    (g : PackageResolveSettings) :
    Except Err (List (List RequestedPackage) × PackageResolveSettings) :=
  mapLines msystem (splitOnChar '\n' (collapseNN (replaceCR input))) g

/-- `MAJOR_MULT` .. `REV_MULT`. -/
def MAJOR_MULT : Nat := 10 ^ 9

def MINOR_MULT : Nat := 10 ^ 6

def PATCH_MULT : Nat := 10 ^ 3

def REV_MULT : Nat := 1

/-- `getCompareNumberForVersion`. -/
def getCompareNumberForVersion (version : Version) : Nat :=
  version.major * MAJOR_MULT + version.minor * MINOR_MULT +
    version.patch * PATCH_MULT + version.rev * REV_MULT

/-- `matchesMatcher`. -/
def matchesMatcher : Matcher → Nat → Bool
  | .any, _ => true
  | .eq data, value => data = value

/-- `isCompatibleVersion`: the matcher array built field by field; the
`for` loop over the four positions is unrolled into a conjunction. -/
def isCompatibleVersion (version : Version) (partialVersion : PartialVersion) : Bool :=
  let m0 := match partialVersion.major with | some d => Matcher.eq d | none => Matcher.any
  let m1 := match partialVersion.minor with | some d => Matcher.eq d | none => Matcher.any
  let m2 := match partialVersion.patch with | some d => Matcher.eq d | none => Matcher.any
  let m3 := match partialVersion.rev with | some d => Matcher.eq d | none => Matcher.any
  matchesMatcher m0 version.major && matchesMatcher m1 version.minor &&
    matchesMatcher m2 version.patch && matchesMatcher m3 version.rev

/-- A `Version` used where a `PartialVersion` is expected
(`requestedVersion = prevVersions[0]`): every field is present. -/
def exactPartialVersion (v : Version) : PartialVersion :=
  ⟨some v.major, some v.minor, some v.patch, some v.rev⟩

/-- The candidate filter loop of `resolveBestSuitablePackage`. -/
def getSuitablePackages (names : List Str) (requestedVersion : PartialVersion)
    (allRawPackages : List RawPackage) : List RawPackage :=
  allRawPackages.filter fun pkg =>
    names.contains pkg.parsedContent.name &&
      isCompatibleVersion pkg.parsedContent.version requestedVersion

/-- The comparator `(pkgA, pkgB) => comparNrB - comparNrA`: `pkgA` may come
before `pkgB` exactly when the comparator is `≤ 0`. -/
def cmpLe (pkgA pkgB : RawPackage) : Bool :=
  getCompareNumberForVersion pkgB.parsedContent.version ≤
    getCompareNumberForVersion pkgA.parsedContent.version

/-- Insert `a` into `l` before the first element `b` with `le a b`.  Used by
`stableSort`. -/
def orderedInsert {α : Type} (le : α → α → Bool) (a : α) : List α → List α
  | [] => [a]
  | b :: l => if le a b then a :: b :: l else b :: orderedInsert le a l

/-- `Array.prototype.sort(cmp)` must return a permutation that is sorted
with respect to the comparator *and* stable (ECMA-262); for a total
comparator these two requirements determine the result uniquely, so any
stable sorting algorithm is the semantics of `.sort`.  Insertion sort is
used here because it is structurally recursive, hence computable by the
kernel. -/
def stableSort {α : Type} (le : α → α → Bool) : List α → List α
  | [] => []
  | b :: l => orderedInsert le b (stableSort le l)

/-- `resolveBestSuitablePackage`.  The `[]` case after sorting is
unreachable (sorting preserves length) and re-uses the empty-candidates
error. -/
def resolveBestSuitablePackage (requestedPackage : RequestedPackage)
    (allRawPackages : List RawPackage) (prevVersions : List Version) :
    Except Err ResolvedPackage :=
  match requestedPackage with
  | .virtual name => .ok (.virtual name)
  | .normal names originalName partialVersion =>
    let resolvedE : Except Err PartialVersion :=
      match partialVersion with
      | .pv p => .ok p
      | .requestedSameAsRest =>
        match prevVersions with
        | [] => .error (.noPriorVersion originalName)
        | v0 :: _ =>
          if prevVersions.all fun prev =>
              getCompareNumberForVersion prev = getCompareNumberForVersion v0 then
            .ok (exactPartialVersion v0)
          else
            .error (.inconsistentSiblings prevVersions)
    match resolvedE with
    | .error e => .error e
    | .ok requestedVersion =>
      let suitablePackages := getSuitablePackages names requestedVersion allRawPackages
      if suitablePackages.isEmpty then .error (.noSuitablePackage originalName)
      else
        match stableSort cmpLe suitablePackages with
        | [] => .error (.noSuitablePackage originalName)
        | rawPackage :: _ =>
          .ok (.normal rawPackage.fullName rawPackage.parsedContent.version
                rawPackage.fullUrl)

/-- `acc.filter(isNormalResolvedPackage).map((r) => r.parsedVersion)`. -/
def resolvedNormalVersions (acc : List ResolvedPackage) : List Version :=
  acc.filterMap fun r =>
    match r with
    | .normal _ v _ => some v
    | .virtual _ => none

/-- The `reduceFn` fold of `resolveBestSuitablePackages`. -/
def resolveLoop (allRawPackages : List RawPackage) :
    List RequestedPackage → List ResolvedPackage → Except Err (List ResolvedPackage)
  | [], acc => .ok acc
  | req :: rest, acc => do
    let result ← resolveBestSuitablePackage req allRawPackages (resolvedNormalVersions acc)
    resolveLoop allRawPackages rest (acc ++ [result])

/-- `resolveBestSuitablePackages`. -/
def resolveBestSuitablePackages (requestedPackages : List RequestedPackage)
    (allRawPackages : List RawPackage) : Except Err (List ResolvedPackage) :=
  resolveLoop allRawPackages requestedPackages []

/-! ## Lexicographic order on versions (for claim C4) -/

/-- Strict lexicographic field-by-field order on `Version`. -/
abbrev lexLtVersion (v w : Version) : Prop :=
  v.major < w.major ∨ (v.major = w.major ∧
    (v.minor < w.minor ∨ (v.minor = w.minor ∧
      (v.patch < w.patch ∨ (v.patch = w.patch ∧ v.rev < w.rev)))))

/-- C4 (counterexample): the comparison weight is not injective on arbitrary
4-tuples of non-negative integers: `(0,1000,0,0)` and `(1,0,0,0)` are
distinct, lexicographically ordered, yet have equal weights, refuting both
"equal weights imply equal 4-tuples" and "greater weight iff
lexicographically greater". -/
theorem weight_counterexample :
    getCompareNumberForVersion ⟨0, 1000, 0, 0⟩ = getCompareNumberForVersion ⟨1, 0, 0, 0⟩ ∧
    (⟨0, 1000, 0, 0⟩ : Version) ≠ ⟨1, 0, 0, 0⟩ ∧
    lexLtVersion ⟨0, 1000, 0, 0⟩ ⟨1, 0, 0, 0⟩ ∧
    ¬ getCompareNumberForVersion ⟨0, 1000, 0, 0⟩ < getCompareNumberForVersion ⟨1, 0, 0, 0⟩ := by
  refine ⟨by decide, by decide, ?_, by decide⟩
  exact Or.inl (by decide)

/-- C4 (amended): for versions whose minor, patch and revision fields are
each below 1000, the comparison weight
`major*10^9 + minor*10^6 + patch*10^3 + rev` is strictly monotone with
respect to the lexicographic field order and injective, hence a total order
agreeing with lexicographic comparison on such versions. -/
theorem weight_orders_bounded_versions (v w : Version)
    (hv : v.minor < 1000 ∧ v.patch < 1000 ∧ v.rev < 1000)
    (hw : w.minor < 1000 ∧ w.patch < 1000 ∧ w.rev < 1000) :
    (getCompareNumberForVersion w < getCompareNumberForVersion v ↔ lexLtVersion w v) ∧
    (getCompareNumberForVersion v = getCompareNumberForVersion w ↔ v = w) := by
  obtain ⟨a, b, c, d⟩ := v
  obtain ⟨a2, b2, c2, d2⟩ := w
  simp only [getCompareNumberForVersion, lexLtVersion, MAJOR_MULT, MINOR_MULT,
    PATCH_MULT, REV_MULT, Version.mk.injEq] at *
  norm_num
  omega

/-- Witness for C4's amended theorem at `(14,2,0,1)` and `(14,1,0,1)`. -/
theorem weight_orders_bounded_versions_witness :
    ((14 : Nat) < 1000 ∧ (2 : Nat) < 1000 ∧ (0 : Nat) < 1000 ∧ (1 : Nat) < 1000) ∧
    ((getCompareNumberForVersion ⟨14, 1, 0, 1⟩ < getCompareNumberForVersion ⟨14, 2, 0, 1⟩ ↔
        lexLtVersion ⟨14, 1, 0, 1⟩ ⟨14, 2, 0, 1⟩) ∧
      (getCompareNumberForVersion ⟨14, 2, 0, 1⟩ = getCompareNumberForVersion ⟨14, 1, 0, 1⟩ ↔
        (⟨14, 2, 0, 1⟩ : Version) = ⟨14, 1, 0, 1⟩)) :=
  ⟨by decide,
   weight_orders_bounded_versions ⟨14, 2, 0, 1⟩ ⟨14, 1, 0, 1⟩
     ⟨by decide, by decide, by decide⟩ ⟨by decide, by decide, by decide⟩⟩

/-! ## Shared-state bugs in specification parsing (claims C1, C2) -/

/-- C1 (code bug): `resolveRequestedPackageSpecs` is not a pure function of
its inputs.  Parsing `"a b=1:v"` writes `virtual := true` through the alias
`settings = DEFAULT_SETTINGS` into the module-level object; a second call
with the very same specification text and environment then parses the
settings-free token `"a"` as a *virtual* package and returns a different
batch.  The first conjunct is the first call (from the pristine default
state), the second the successive call (from the leaked state), and the
third that their batches differ. -/
theorem specs_not_pure_across_calls :
    resolveRequestedPackageSpecs "a b=1:v".toList .clang64 DEFAULT_SETTINGS =
      .ok ([[.normal ["a".toList, "mingw-w64-clang-x86_64-a".toList] "a".toList
              (.pv EMPTY_PARTIAL_VERSION),
            .virtual "mingw-w64-clang-x86_64-b".toList]],
           { virtual := true, prependPfx := true }) ∧
    resolveRequestedPackageSpecs "a b=1:v".toList .clang64
        { virtual := true, prependPfx := true } =
      .ok ([[.virtual "mingw-w64-clang-x86_64-a".toList,
            .virtual "mingw-w64-clang-x86_64-b".toList]],
           { virtual := true, prependPfx := true }) ∧
    ([[RequestedPackage.normal ["a".toList, "mingw-w64-clang-x86_64-a".toList] "a".toList
        (.pv EMPTY_PARTIAL_VERSION),
       .virtual "mingw-w64-clang-x86_64-b".toList]] : List (List RequestedPackage)) ≠
      [[.virtual "mingw-w64-clang-x86_64-a".toList,
        .virtual "mingw-w64-clang-x86_64-b".toList]] := by
  refine ⟨rfl, rfl, by decide⟩

/-- C2 (code bug): a token without `=` does not get the default settings
`virtual = false`, `prepend-prefix = true` independently of the tokens
parsed earlier: in the single batch `"a=1:v b"` the settings string `v` of
the first token mutates the shared `DEFAULT_SETTINGS` object, and the
bare token `"b"` is then parsed as a *virtual* request instead of a normal
one with default settings. -/
theorem bare_token_not_default_settings :
    resolveRequestedPackages "a=1:v b".toList .clang64 DEFAULT_SETTINGS =
      .ok ([.virtual "mingw-w64-clang-x86_64-a".toList,
            .virtual "mingw-w64-clang-x86_64-b".toList],
           { virtual := true, prependPfx := true }) := by
  decide

/-! ## Empty tokens (claim C5) -/

/-- C5 (counterexample): splitting `"a  b"` on single spaces yields the empty
token, and parsing *succeeds* — no `EmptyPackageToken` (nor any other)
error is raised; the empty token becomes a normal request whose bare name
is the empty string. -/
theorem emptyToken_counterexample :
    resolveRequestedPackages "a  b".toList .clang64 DEFAULT_SETTINGS =
      .ok ([.normal ["a".toList, "mingw-w64-clang-x86_64-a".toList] "a".toList
              (.pv EMPTY_PARTIAL_VERSION),
            .normal [[], "mingw-w64-clang-x86_64-".toList] []
              (.pv EMPTY_PARTIAL_VERSION),
            .normal ["b".toList, "mingw-w64-clang-x86_64-b".toList] "b".toList
              (.pv EMPTY_PARTIAL_VERSION)],
           DEFAULT_SETTINGS) := by
  decide

/-- C5 (amended): an empty token produced by consecutive spaces is accepted,
not rejected: under any current global settings it parses to a
`PackageInput` with empty name, unconstrained version and the current
settings, and (when the current settings are not virtual) the token maps to
a normal request with the empty string as its original name. -/
theorem emptyToken_parses (msystem : MSystem) (g : PackageResolveSettings)
    (h : g.virtual = false) :
    resolvePackageString [] g =
      .ok ({ name := [], partialVersion := .pv EMPTY_PARTIAL_VERSION, settings := g }, g) ∧
    mapTokens msystem [[]] g =
      .ok ([.normal (resolveNamesFromUserInputName [] msystem g.prependPfx) []
              (.pv EMPTY_PARTIAL_VERSION)], g) := by
  constructor
  · rfl
  · simp only [mapTokens, resolvePackageString, List.contains, List.elem, bind,
      Except.bind, h, Bool.false_eq_true, if_false]

/-- Witness for C5's amended theorem at `clang64` and the pristine default
settings. -/
theorem emptyToken_parses_witness :
    (DEFAULT_SETTINGS.virtual = false) ∧
    (resolvePackageString [] DEFAULT_SETTINGS =
      .ok ({ name := [], partialVersion := .pv EMPTY_PARTIAL_VERSION,
             settings := DEFAULT_SETTINGS }, DEFAULT_SETTINGS) ∧
     mapTokens .clang64 [[]] DEFAULT_SETTINGS =
      .ok ([.normal (resolveNamesFromUserInputName [] .clang64 DEFAULT_SETTINGS.prependPfx) []
              (.pv EMPTY_PARTIAL_VERSION)], DEFAULT_SETTINGS)) :=
  ⟨by decide, emptyToken_parses .clang64 DEFAULT_SETTINGS (by decide)⟩

/-! ## Per-entry throws in catalog extraction (claim C7) -/

/-- C7 (code bug): an individual link entry *can* make `extractPackages`
throw even though the container block is present: the decoded name
`x-..--t.e` matches the artifact-name regex with empty digit captures, and
`parseIntSafe("")` throws `NotAnInteger`, aborting the whole extraction.
The second conjunct records the intended structural error when the
container is missing. -/
theorem extractPackages_throws_on_entry :
    extractPackages [] (some [⟨"x-..--t.e".toList, "x-..--t.e".toList⟩]) =
      .error (.notAnInteger []) ∧
    extractPackages [] none = .error .malformedCatalogDoc := by
  exact ⟨by decide, rfl⟩

/-! ## Classification of `.db` names (claim C8) -/

/-- C8 (counterexample): a decoded name with a suffix *after* `.db` is not
skipped with reason ".db file": `clang64.db.tar.zst` does not satisfy
`endsWith(".db")`, falls through to artifact-name parsing, fails it, and is
recorded in `failed` — refuting the claim that every name containing `.db`
followed by any suffix is skipped. -/
theorem dbSuffix_counterexample :
    extractPackages [] (some [⟨"clang64.db.tar.zst".toList, "clang64.db.tar.zst".toList⟩]) =
      .ok ⟨⟨[], ["clang64.db.tar.zst".toList]⟩, []⟩ := by
  decide

/-- C8 (amended): a link whose decoded name ends with `.db` *exactly* (and
does not end with `.sig`, which is checked first) is classified as skipped
with reason ".db file" and contributes to neither the failed list nor the
usable packages, whatever the other entries are. -/
theorem dbExact_skipped (repoLink : Str) (e : LinkEntry) (es : List LinkEntry)
    (h1 : (".db".toList).isSuffixOf e.decoded = true)
    (h2 : (".sig".toList).isSuffixOf e.decoded = false) :
    extractLoop repoLink (e :: es) =
      (extractLoop repoLink es).map fun (sk, fl, pk) =>
        ((e.decoded, ".db file".toList) :: sk, fl, pk) := by
  simp only [extractLoop, h1, h2, Bool.false_eq_true, if_false, if_true]

/-- Witness for C8's amended theorem at the entry `clang64.db`. -/
theorem dbExact_skipped_witness :
    ((".db".toList).isSuffixOf ("clang64.db".toList) = true ∧
     (".sig".toList).isSuffixOf ("clang64.db".toList) = false) ∧
    extractLoop [] [⟨"clang64.db".toList, "clang64.db".toList⟩] =
      (extractLoop [] []).map fun (sk, fl, pk) =>
        (("clang64.db".toList, ".db file".toList) :: sk, fl, pk) :=
  ⟨⟨by decide, by decide⟩,
   dbExact_skipped [] ⟨"clang64.db".toList, "clang64.db".toList⟩ []
     (by decide) (by decide)⟩

/-! ## Reachability of `NotAnInteger` in partial versions (claim C9) -/

/-- C9 (counterexample): the partial-version regex accepts `"."` (it is
neither empty nor `"!"`, and `matchPartialVersion` succeeds with empty
digit captures), yet integer parsing of the empty captured run fails: the
`NotAnInteger` branch is reachable under the claim's precondition. -/
theorem notAnInteger_reachable :
    matchPartialVersion ".".toList = some ⟨[], some [], none, none⟩ ∧
    parsePartialVersion ".".toList = .error (.notAnInteger []) := by
  exact ⟨rfl, rfl⟩

/-! ## Cross-reference marker resolution (claim C3) -/

/-- C3 (counterexample): in the line `a b=2 c=!` resolved against a catalog
holding `a-1.0.0-0`, `b-2.0.0-0` and `c-2.0.0-0`, the only *explicitly
versioned* prior package (`b=2`, resolved to `2.0.0-0`) trivially agrees
with itself, and indeed the marker restricted to that prior version alone
resolves to `c-2.0.0-0` (second conjunct).  The code nevertheless fails
with `InconsistentSiblingVersions` (first conjunct) because the
*unconstrained* prior package `a` (resolved to `1.0.0-0`) also takes part
in the agreement check: participation is not limited to explicitly
versioned priors. -/
theorem crossRef_counterexample :
    resolveBestSuitablePackages
      [.normal ["a".toList] "a".toList (.pv EMPTY_PARTIAL_VERSION),
       .normal ["b".toList] "b".toList (.pv { major := some 2 }),
       .normal ["c".toList] "c".toList .requestedSameAsRest]
      [⟨"a-1.0.0-0-any.pkg.tar.zst".toList,
        ⟨"a".toList, ⟨1, 0, 0, 0⟩, "any".toList, "pkg.tar.zst".toList⟩, "ua".toList⟩,
       ⟨"b-2.0.0-0-any.pkg.tar.zst".toList,
        ⟨"b".toList, ⟨2, 0, 0, 0⟩, "any".toList, "pkg.tar.zst".toList⟩, "ub".toList⟩,
       ⟨"c-2.0.0-0-any.pkg.tar.zst".toList,
        ⟨"c".toList, ⟨2, 0, 0, 0⟩, "any".toList, "pkg.tar.zst".toList⟩, "uc".toList⟩] =
      .error (.inconsistentSiblings [⟨1, 0, 0, 0⟩, ⟨2, 0, 0, 0⟩]) ∧
    resolveBestSuitablePackage
      (.normal ["c".toList] "c".toList .requestedSameAsRest)
      [⟨"a-1.0.0-0-any.pkg.tar.zst".toList,
        ⟨"a".toList, ⟨1, 0, 0, 0⟩, "any".toList, "pkg.tar.zst".toList⟩, "ua".toList⟩,
       ⟨"b-2.0.0-0-any.pkg.tar.zst".toList,
        ⟨"b".toList, ⟨2, 0, 0, 0⟩, "any".toList, "pkg.tar.zst".toList⟩, "ub".toList⟩,
       ⟨"c-2.0.0-0-any.pkg.tar.zst".toList,
        ⟨"c".toList, ⟨2, 0, 0, 0⟩, "any".toList, "pkg.tar.zst".toList⟩, "uc".toList⟩]
      [⟨2, 0, 0, 0⟩] =
      .ok (.normal "c-2.0.0-0-any.pkg.tar.zst".toList ⟨2, 0, 0, 0⟩ "uc".toList) := by
  exact ⟨rfl, rfl⟩

/-- C3 (amended): a normal request carrying the cross-reference marker fails
with `NoPriorVersionToReference` when there are no prior resolved normal
versions in the line; with *all* prior resolved normal versions (explicitly
versioned or not) as `prevVersions`, it fails with
`InconsistentSiblingVersions` when they do not all share the weight of the
first one, and otherwise behaves like a request pinned exactly to the first
prior version. -/
theorem crossRef_marker_behavior (names : List Str) (orig : Str)
    (all : List RawPackage) (prevVersions : List Version) :
    (prevVersions = [] →
      resolveBestSuitablePackage (.normal names orig .requestedSameAsRest) all prevVersions
        = .error (.noPriorVersion orig)) ∧
    (∀ v0 rest, prevVersions = v0 :: rest →
      ((¬ ∀ v ∈ prevVersions,
          getCompareNumberForVersion v = getCompareNumberForVersion v0) →
        resolveBestSuitablePackage (.normal names orig .requestedSameAsRest) all prevVersions
          = .error (.inconsistentSiblings prevVersions)) ∧
      ((∀ v ∈ prevVersions,
          getCompareNumberForVersion v = getCompareNumberForVersion v0) →
        resolveBestSuitablePackage (.normal names orig .requestedSameAsRest) all prevVersions
          = resolveBestSuitablePackage (.normal names orig (.pv (exactPartialVersion v0)))
              all prevVersions)) := by
  constructor
  · intro h
    subst h
    rfl
  · intro v0 rest h
    subst h
    constructor
    · intro hne
      have hc : ((v0 :: rest).all fun prev =>
          getCompareNumberForVersion prev = getCompareNumberForVersion v0) = false := by
        rw [Bool.eq_false_iff]
        intro hall
        exact hne (by simpa using List.all_eq_true.mp hall)
      simp only [resolveBestSuitablePackage, hc, Bool.false_eq_true, if_false]
    · intro hy
      have hc : ((v0 :: rest).all fun prev =>
          getCompareNumberForVersion prev = getCompareNumberForVersion v0) = true := by
        rw [List.all_eq_true]
        intro x hx
        simpa using hy x hx
      simp only [resolveBestSuitablePackage, hc, if_true]

/-- Witness for C3's amended theorem: with the single prior version
`2.0.0-0` the agreement check passes and the marker behaves like an exact
pin to that version. -/
theorem crossRef_marker_behavior_witness :
    resolveBestSuitablePackage
        (.normal ["c".toList] "c".toList .requestedSameAsRest) [] [⟨2, 0, 0, 0⟩] =
      resolveBestSuitablePackage
        (.normal ["c".toList] "c".toList (.pv (exactPartialVersion ⟨2, 0, 0, 0⟩)))
        [] [⟨2, 0, 0, 0⟩] :=
  ((crossRef_marker_behavior ["c".toList] "c".toList [] [⟨2, 0, 0, 0⟩]).2
    ⟨2, 0, 0, 0⟩ [] rfl).2 (by decide)

/-! ## Best-candidate selection (claim C6) -/

/-- The first element of a list attaining the maximal comparison weight
(`none` for the empty list): the specification-side description of what
"stable descending sort, then take the head" returns. -/
def firstMax : List RawPackage → Option RawPackage
  | [] => none
  | x :: xs =>
    match firstMax xs with
    | none => some x
    | some y =>
      if getCompareNumberForVersion x.parsedContent.version <
          getCompareNumberForVersion y.parsedContent.version then some y else some x

theorem firstMax_isSome {l : List RawPackage} (h : l ≠ []) :
    ∃ m, firstMax l = some m := by
  cases l with
  | nil => exact absurd rfl h
  | cons x xs =>
    cases hm : firstMax xs with
    | none => exact ⟨x, by simp [firstMax, hm]⟩
    | some y =>
      by_cases hlt : getCompareNumberForVersion x.parsedContent.version <
          getCompareNumberForVersion y.parsedContent.version
      · exact ⟨y, by simp [firstMax, hm, hlt]⟩
      · exact ⟨x, by simp [firstMax, hm, hlt]⟩

theorem firstMax_decomp :
    ∀ {l : List RawPackage} {m : RawPackage}, firstMax l = some m →
      ∃ pre post, l = pre ++ m :: post ∧
        (∀ x ∈ pre, getCompareNumberForVersion x.parsedContent.version <
          getCompareNumberForVersion m.parsedContent.version) ∧
        (∀ x ∈ l, getCompareNumberForVersion x.parsedContent.version ≤
          getCompareNumberForVersion m.parsedContent.version) := by
  intro l
  induction l with
  | nil => intro m h; simp [firstMax] at h
  | cons x xs ih =>
    intro m h
    cases hm : firstMax xs with
    | none =>
      have hxs : xs = [] := by
        cases xs with
        | nil => rfl
        | cons a b =>
          obtain ⟨m2, hm2⟩ := firstMax_isSome (l := a :: b) (by simp)
          rw [hm2] at hm
          exact absurd hm (by simp)
      subst hxs
      simp [firstMax] at h
      subst h
      exact ⟨[], [], rfl, by simp, by simp⟩
    | some y =>
      rw [firstMax, hm] at h
      have h2 : (if getCompareNumberForVersion x.parsedContent.version <
          getCompareNumberForVersion y.parsedContent.version then some y else some x)
          = some m := h
      clear h
      obtain ⟨pre, post, hd, hpre, hall⟩ := ih hm
      by_cases hlt : getCompareNumberForVersion x.parsedContent.version <
          getCompareNumberForVersion y.parsedContent.version
      · rw [if_pos hlt] at h2
        injection h2 with h
        subst h
        refine ⟨x :: pre, post, by simp [hd], ?_, ?_⟩
        · intro z hz
          rcases List.mem_cons.mp hz with hz | hz
          · subst hz; exact hlt
          · exact hpre z hz
        · intro z hz
          rcases List.mem_cons.mp hz with hz | hz
          · subst hz; exact Nat.le_of_lt hlt
          · exact hall z hz
      · rw [if_neg hlt] at h2
        injection h2 with h
        subst h
        refine ⟨[], xs, rfl, by simp, ?_⟩
        intro z hz
        rcases List.mem_cons.mp hz with hz | hz
        · subst hz; exact Nat.le_refl _
        · exact Nat.le_trans (hall z hz) (Nat.le_of_not_lt hlt)

/-- The head of the stable descending sort is the first-seen weight maximum. -/
theorem stableSort_head :
    ∀ l : List RawPackage, (stableSort cmpLe l).head? = firstMax l := by
  intro l
  induction l with
  | nil => rfl
  | cons x xs ih =>
    show (orderedInsert cmpLe x (stableSort cmpLe xs)).head? = firstMax (x :: xs)
    cases hs : stableSort cmpLe xs with
    | nil =>
      rw [hs] at ih
      rw [firstMax, ← ih]
      rfl
    | cons b t =>
      rw [hs] at ih
      rw [firstMax, ← ih]
      simp only [List.head?]
      by_cases hb : cmpLe x b
      · have hnlt : ¬ getCompareNumberForVersion x.parsedContent.version <
            getCompareNumberForVersion b.parsedContent.version := by
          simp only [cmpLe, decide_eq_true_eq] at hb
          omega
        rw [orderedInsert, if_pos hb, if_neg hnlt]
      · have hlt : getCompareNumberForVersion x.parsedContent.version <
            getCompareNumberForVersion b.parsedContent.version := by
          simp only [cmpLe, decide_eq_true_eq] at hb
          omega
        rw [orderedInsert, if_neg hb, if_pos hlt]

/-- C6: when the filtered candidate set of a normal request (with a plain
partial version) is non-empty, the resolver returns the entry whose version
has the maximal comparison weight, and among equal weights the entry seen
first in catalog iteration order: the chosen entry occurs in the filtered
list preceded only by strictly lighter entries and is at least as heavy as
every filtered entry.  In particular (second conjunct), resolving `gcc=14`
against a catalog holding `gcc-14.1.0-1` and `gcc-14.2.0-1` selects the
`14.2.0-1` entry. -/
theorem resolver_picks_first_max :
    (∀ (names : List Str) (orig : Str) (pv : PartialVersion)
        (all : List RawPackage) (prevVersions : List Version),
      getSuitablePackages names pv all ≠ [] →
      ∃ best pre post,
        resolveBestSuitablePackage (.normal names orig (.pv pv)) all prevVersions
          = .ok (.normal best.fullName best.parsedContent.version best.fullUrl) ∧
        getSuitablePackages names pv all = pre ++ best :: post ∧
        (∀ x ∈ pre, getCompareNumberForVersion x.parsedContent.version <
          getCompareNumberForVersion best.parsedContent.version) ∧
        (∀ x ∈ getSuitablePackages names pv all,
          getCompareNumberForVersion x.parsedContent.version ≤
            getCompareNumberForVersion best.parsedContent.version)) ∧
    resolveBestSuitablePackage
        (.normal ["gcc".toList] "gcc".toList (.pv { major := some 14 }))
        [⟨"gcc-14.1.0-1-any.pkg.tar.zst".toList,
          ⟨"gcc".toList, ⟨14, 1, 0, 1⟩, "any".toList, "pkg.tar.zst".toList⟩, "u1".toList⟩,
         ⟨"gcc-14.2.0-1-any.pkg.tar.zst".toList,
          ⟨"gcc".toList, ⟨14, 2, 0, 1⟩, "any".toList, "pkg.tar.zst".toList⟩, "u2".toList⟩]
        [] =
      .ok (.normal "gcc-14.2.0-1-any.pkg.tar.zst".toList ⟨14, 2, 0, 1⟩ "u2".toList) := by
  constructor
  · intro names orig pv all prevVersions h
    obtain ⟨best, hb⟩ := firstMax_isSome h
    obtain ⟨pre, post, hd, hpre, hall⟩ := firstMax_decomp hb
    have hh : (stableSort cmpLe (getSuitablePackages names pv all)).head? = some best := by
      rw [stableSort_head, hb]
    obtain ⟨tail, ht⟩ : ∃ t, stableSort cmpLe (getSuitablePackages names pv all)
        = best :: t := by
      cases hs : stableSort cmpLe (getSuitablePackages names pv all) with
      | nil => rw [hs] at hh; exact absurd hh (by simp)
      | cons a t =>
        rw [hs] at hh
        simp only [List.head?, Option.some.injEq] at hh
        exact ⟨t, by rw [hh]⟩
    refine ⟨best, pre, post, ?_, hd, hpre, hall⟩
    have hie : (getSuitablePackages names pv all).isEmpty = false := by
      cases hsu : getSuitablePackages names pv all with
      | nil => exact absurd hsu h
      | cons a t => rfl
    simp only [resolveBestSuitablePackage, hie, Bool.false_eq_true, if_false, ht]
  · rfl

/-- Witness for the general part of C6's theorem at the gcc catalog. -/
theorem resolver_picks_first_max_witness :
    (getSuitablePackages ["gcc".toList] { major := some 14 }
      [⟨"gcc-14.1.0-1-any.pkg.tar.zst".toList,
        ⟨"gcc".toList, ⟨14, 1, 0, 1⟩, "any".toList, "pkg.tar.zst".toList⟩, "u1".toList⟩,
       ⟨"gcc-14.2.0-1-any.pkg.tar.zst".toList,
        ⟨"gcc".toList, ⟨14, 2, 0, 1⟩, "any".toList, "pkg.tar.zst".toList⟩, "u2".toList⟩] ≠ []) ∧
    (∃ best pre post,
      resolveBestSuitablePackage
          (.normal ["gcc".toList] "gcc".toList (.pv { major := some 14 }))
          [⟨"gcc-14.1.0-1-any.pkg.tar.zst".toList,
            ⟨"gcc".toList, ⟨14, 1, 0, 1⟩, "any".toList, "pkg.tar.zst".toList⟩, "u1".toList⟩,
           ⟨"gcc-14.2.0-1-any.pkg.tar.zst".toList,
            ⟨"gcc".toList, ⟨14, 2, 0, 1⟩, "any".toList, "pkg.tar.zst".toList⟩, "u2".toList⟩]
          []
        = .ok (.normal best.fullName best.parsedContent.version best.fullUrl) ∧
      getSuitablePackages ["gcc".toList] { major := some 14 }
        [⟨"gcc-14.1.0-1-any.pkg.tar.zst".toList,
          ⟨"gcc".toList, ⟨14, 1, 0, 1⟩, "any".toList, "pkg.tar.zst".toList⟩, "u1".toList⟩,
         ⟨"gcc-14.2.0-1-any.pkg.tar.zst".toList,
          ⟨"gcc".toList, ⟨14, 2, 0, 1⟩, "any".toList, "pkg.tar.zst".toList⟩, "u2".toList⟩]
        = pre ++ best :: post ∧
      (∀ x ∈ pre, getCompareNumberForVersion x.parsedContent.version <
        getCompareNumberForVersion best.parsedContent.version) ∧
      (∀ x ∈ getSuitablePackages ["gcc".toList] { major := some 14 }
          [⟨"gcc-14.1.0-1-any.pkg.tar.zst".toList,
            ⟨"gcc".toList, ⟨14, 1, 0, 1⟩, "any".toList, "pkg.tar.zst".toList⟩, "u1".toList⟩,
           ⟨"gcc-14.2.0-1-any.pkg.tar.zst".toList,
            ⟨"gcc".toList, ⟨14, 2, 0, 1⟩, "any".toList, "pkg.tar.zst".toList⟩, "u2".toList⟩],
        getCompareNumberForVersion x.parsedContent.version ≤
          getCompareNumberForVersion best.parsedContent.version)) :=
  ⟨by decide,
   resolver_picks_first_max.1 ["gcc".toList] "gcc".toList { major := some 14 }
     [⟨"gcc-14.1.0-1-any.pkg.tar.zst".toList,
       ⟨"gcc".toList, ⟨14, 1, 0, 1⟩, "any".toList, "pkg.tar.zst".toList⟩, "u1".toList⟩,
      ⟨"gcc-14.2.0-1-any.pkg.tar.zst".toList,
       ⟨"gcc".toList, ⟨14, 2, 0, 1⟩, "any".toList, "pkg.tar.zst".toList⟩, "u2".toList⟩]
     [] (by decide)⟩

/-! ## Amended safety of partial-version parsing (claim C9) -/

theorem parseIntSafe_digitRun {s : Str} (hall : ∀ c ∈ s, Char.isDigit c)
    (hne : s ≠ []) : parseIntSafe s = .ok (digitsToNat s) := by
  cases s with
  | nil => exact absurd rfl hne
  | cons c cs =>
    unfold parseIntSafe
    rw [show (c :: cs).takeWhile Char.isDigit = c :: cs from
      List.takeWhile_eq_self_iff.mpr hall]
    rfl

theorem optDigits_of (l : Str) :
    ∀ x, some (l.takeWhile Char.isDigit) = some x → ∀ c ∈ x, Char.isDigit c := by
  intro x hx c hc
  injection hx with hx
  subst hx
  exact List.mem_takeWhile_imp hc

/-- Every capture of the partial-version regex is a digit run. -/
theorem matchPartialVersion_digits {s : Str} {caps : PartialCaps}
    (h : matchPartialVersion s = some caps) :
    (∀ c ∈ caps.major, Char.isDigit c) ∧
    (∀ x, caps.minor = some x → ∀ c ∈ x, Char.isDigit c) ∧
    (∀ x, caps.patch = some x → ∀ c ∈ x, Char.isDigit c) ∧
    (∀ x, caps.rev = some x → ∀ c ∈ x, Char.isDigit c) := by
  rw [matchPartialVersion] at h
  simp only [span] at h
  split at h
  · injection h with h1
    subst h1
    exact ⟨fun c hc => List.mem_takeWhile_imp hc, by simp, by simp, by simp⟩
  · split at h
    · injection h with h1
      subst h1
      exact ⟨fun c hc => List.mem_takeWhile_imp hc, optDigits_of _, by simp, by simp⟩
    · split at h
      · injection h with h1
        subst h1
        exact ⟨fun c hc => List.mem_takeWhile_imp hc, optDigits_of _, optDigits_of _,
          by simp⟩
      · split at h
        · injection h with h1
          subst h1
          exact ⟨fun c hc => List.mem_takeWhile_imp hc, optDigits_of _, optDigits_of _,
            optDigits_of _⟩
        · exact absurd h (by simp)
      · exact absurd h (by simp)
    · exact absurd h (by simp)
  · exact absurd h (by simp)

/-- C9 (amended): when the partial-version regex accepts an input (other
than the empty string and the `!` sentinel, which never reach the regex)
*and every captured digit run is non-empty*, the subsequent integer parsing
succeeds and yields the numeric value of each captured run; the
`NotAnInteger` branch is reachable only through empty captured runs (see
the counterexample `"."`). -/
theorem partialVersion_parse_succeeds (s : Str) (caps : PartialCaps)
    (h : matchPartialVersion s = some caps)
    (hmj : caps.major ≠ [])
    (hmn : ∀ x, caps.minor = some x → x ≠ [])
    (hpt : ∀ x, caps.patch = some x → x ≠ [])
    (hrv : ∀ x, caps.rev = some x → x ≠ []) :
    parsePartialVersion s =
      .ok (.pv ⟨some (digitsToNat caps.major), caps.minor.map digitsToNat,
                caps.patch.map digitsToNat, caps.rev.map digitsToNat⟩) := by
  obtain ⟨hd1, hd2, hd3, hd4⟩ := matchPartialVersion_digits h
  have hsne : s ≠ [] := by
    rintro rfl
    have h0 : matchPartialVersion ([] : Str) = some ⟨[], none, none, none⟩ := rfl
    rw [h0] at h
    injection h with h1
    subst h1
    exact hmj rfl
  have hbang : s ≠ ['!'] := by
    rintro rfl
    have h0 : matchPartialVersion ['!'] = none := rfl
    rw [h0] at h
    exact Option.noConfusion h
  obtain ⟨mj, mn, pt, rv⟩ := caps
  rw [parsePartialVersion]
  rw [if_neg (fun hh => hbang (by simpa using hh)), if_neg hsne, h]
  simp only at hd1 hd2 hd3 hd4 hmj hmn hpt hrv
  dsimp only
  rw [show parseIntSafe mj = .ok (digitsToNat mj) from parseIntSafe_digitRun hd1 hmj]
  cases mn with
  | none =>
    cases pt with
    | none =>
      cases rv with
      | none => rfl
      | some x =>
        simp only [parseOptCap,
          parseIntSafe_digitRun (hd4 x rfl) (hrv x rfl), Except.map]
        rfl
    | some x =>
      cases rv with
      | none =>
        simp only [parseOptCap,
          parseIntSafe_digitRun (hd3 x rfl) (hpt x rfl), Except.map]
        rfl
      | some y =>
        simp only [parseOptCap, parseIntSafe_digitRun (hd3 x rfl) (hpt x rfl),
          parseIntSafe_digitRun (hd4 y rfl) (hrv y rfl), Except.map]
        rfl
  | some w =>
    cases pt with
    | none =>
      cases rv with
      | none =>
        simp only [parseOptCap,
          parseIntSafe_digitRun (hd2 w rfl) (hmn w rfl), Except.map]
        rfl
      | some x =>
        simp only [parseOptCap, parseIntSafe_digitRun (hd2 w rfl) (hmn w rfl),
          parseIntSafe_digitRun (hd4 x rfl) (hrv x rfl), Except.map]
        rfl
    | some x =>
      cases rv with
      | none =>
        simp only [parseOptCap, parseIntSafe_digitRun (hd2 w rfl) (hmn w rfl),
          parseIntSafe_digitRun (hd3 x rfl) (hpt x rfl), Except.map]
        rfl
      | some y =>
        simp only [parseOptCap, parseIntSafe_digitRun (hd2 w rfl) (hmn w rfl),
          parseIntSafe_digitRun (hd3 x rfl) (hpt x rfl),
          parseIntSafe_digitRun (hd4 y rfl) (hrv y rfl), Except.map]
        rfl

/-- Witness for C9's amended theorem at the accepted input `"1.2"`. -/
theorem partialVersion_parse_succeeds_witness :
    (matchPartialVersion "1.2".toList = some ⟨['1'], some ['2'], none, none⟩) ∧
    parsePartialVersion "1.2".toList =
      .ok (.pv ⟨some (digitsToNat ['1']), (some ['2']).map digitsToNat,
                (none : Option Str).map digitsToNat,
                (none : Option Str).map digitsToNat⟩) :=
  ⟨rfl,
   partialVersion_parse_succeeds "1.2".toList ⟨['1'], some ['2'], none, none⟩ rfl
     (by simp) (by simp) (by simp) (by simp)⟩

/-! ## Round trip of the artifact-name format (claim C10) -/

/-- Canonical decimal rendering, fuel-based so the kernel can compute it.
The fuel `n + 1` always suffices since the argument strictly decreases. -/
def natDigitsGo : Nat → Nat → Str
  | 0, _ => []
  | fuel + 1, n =>
    if n < 10 then [Nat.digitChar n]
    else natDigitsGo fuel (n / 10) ++ [Nat.digitChar (n % 10)]

/-- The decimal rendering `${n}` used by JS template literals on a
non-negative integer. -/
def natDigits (n : Nat) : Str := natDigitsGo (n + 1) n

/-- Modelled from the spec: the artifact-name format
`<name>-<maj>.<min>.<pat>-<rev>-<target>.<ext>` of §8's round-trip
property (the source only ever parses this shape; `format` itself is not a
function of the source). -/
def formatArtifactName (name : Str) (v : Version) (target : Str) (ext : Str) : Str :=
  name ++ '-' :: (natDigits v.major ++ '.' :: (natDigits v.minor ++ '.' ::
    (natDigits v.patch ++ '-' :: (natDigits v.rev ++ '-' ::
      (target ++ '.' :: ext)))))

theorem digitChar_isDigit {d : Nat} (h : d < 10) : (Nat.digitChar d).isDigit = true := by
  interval_cases d <;> decide

theorem digitChar_val {d : Nat} (h : d < 10) : (Nat.digitChar d).toNat - 48 = d := by
  interval_cases d <;> decide

theorem digit_not_dash_dot {c : Char} (h : c.isDigit = true) : c ≠ '-' ∧ c ≠ '.' := by
  refine ⟨?_, ?_⟩ <;> rintro rfl <;> exact absurd h (by decide)

theorem digitsToNat_append_singleton (xs : Str) (c : Char) :
    digitsToNat (xs ++ [c]) = 10 * digitsToNat xs + (c.toNat - 48) := by
  simp [digitsToNat, List.foldl_append]

theorem natDigitsGo_spec :
    ∀ n : Nat, ∀ f : Nat, n < f →
      (∀ c ∈ natDigitsGo f n, c.isDigit = true) ∧ natDigitsGo f n ≠ [] ∧
        digitsToNat (natDigitsGo f n) = n := by
  intro n
  induction n using Nat.strong_induction_on with
  | _ n ih =>
    intro f hf
    match f with
    | 0 => omega
    | f + 1 =>
      by_cases h10 : n < 10
      · rw [natDigitsGo, if_pos h10]
        refine ⟨?_, by simp, ?_⟩
        · intro c hc
          rw [List.mem_singleton] at hc
          subst hc
          exact digitChar_isDigit h10
        · show digitsToNat ([] ++ [Nat.digitChar n]) = n
          rw [digitsToNat_append_singleton]
          have : digitsToNat [] = 0 := rfl
          rw [this, digitChar_val h10]
          omega
      · rw [natDigitsGo, if_neg h10]
        have hdiv : n / 10 < n := Nat.div_lt_self (by omega) (by omega)
        obtain ⟨hall, hne, hval⟩ := ih (n / 10) hdiv f (by omega)
        refine ⟨?_, by simp, ?_⟩
        · intro c hc
          rcases List.mem_append.mp hc with hc | hc
          · exact hall c hc
          · rw [List.mem_singleton] at hc
            subst hc
            exact digitChar_isDigit (Nat.mod_lt _ (by omega))
        · rw [digitsToNat_append_singleton, hval,
            digitChar_val (Nat.mod_lt _ (by omega))]
          omega

theorem natDigits_digits {n : Nat} : ∀ c ∈ natDigits n, c.isDigit = true :=
  (natDigitsGo_spec n (n + 1) (Nat.lt_succ_self n)).1

theorem natDigits_ne_nil {n : Nat} : natDigits n ≠ [] :=
  (natDigitsGo_spec n (n + 1) (Nat.lt_succ_self n)).2.1

theorem digitsToNat_natDigits {n : Nat} : digitsToNat (natDigits n) = n :=
  (natDigitsGo_spec n (n + 1) (Nat.lt_succ_self n)).2.2

theorem span_exact {p : Char → Bool} {xs : Str} (y : Char) (ys : Str)
    (hxs : ∀ c ∈ xs, p c = true) (hy : p y = false) :
    span p (xs ++ y :: ys) = (xs, y :: ys) := by
  induction xs with
  | nil =>
    rw [List.nil_append, span, List.takeWhile_cons_of_neg (by simp [hy]),
      List.dropWhile_cons_of_neg (by simp [hy])]
  | cons a as ih =>
    have ha : p a = true := hxs a (List.mem_cons_self a as)
    have ih2 := ih fun c hc => hxs c (List.mem_cons_of_mem a hc)
    rw [span] at ih2 ⊢
    rw [Prod.ext_iff] at ih2
    simp only at ih2
    rw [List.cons_append, List.takeWhile_cons_of_pos ha, List.dropWhile_cons_of_pos ha,
      ih2.1, ih2.2]

theorem spanThen_exact {p : Char → Bool} {lit : Char} {xs : Str} (ys : Str)
    (hxs : ∀ c ∈ xs, p c = true) (hlit : p lit = false) :
    spanThen p lit (xs ++ lit :: ys) = some (xs, ys) := by
  rw [spanThen, span_exact lit ys hxs hlit]
  simp

theorem spanThen_stopfail {p : Char → Bool} {lit : Char} {xs : Str} (y : Char) (ys : Str)
    (hxs : ∀ c ∈ xs, p c = true) (hy : p y = false) (hne : y ≠ lit) :
    spanThen p lit (xs ++ y :: ys) = none := by
  rw [spanThen, span_exact y ys hxs hy]
  simp [hne]

theorem spanThen_allfail {p : Char → Bool} {lit : Char} {xs : Str}
    (hxs : ∀ c ∈ xs, p c = true) :
    spanThen p lit xs = none := by
  rw [spanThen]
  have h1 : xs.dropWhile p = [] := List.dropWhile_eq_nil_iff.mpr fun x hx => by
    simp [hxs x hx]
  rw [span]
  rw [h1]

theorem spanThen_rest_subset {p : Char → Bool} {lit : Char} {r x rest : Str}
    (h : spanThen p lit r = some (x, rest)) : ∀ c ∈ rest, c ∈ r := by
  rw [spanThen, span] at h
  cases hd : r.dropWhile p with
  | nil => rw [hd] at h; exact absurd h (by simp)
  | cons y t =>
    rw [hd] at h
    dsimp only at h
    by_cases hy : y = lit
    · rw [if_pos hy] at h
      injection h with h
      have ht : rest = t := (congrArg Prod.snd h).symm
      subst ht
      intro c hc
      exact List.dropWhile_subset p (hd ▸ List.mem_cons_of_mem y hc)
    · rw [if_neg hy] at h
      exact absurd h (by simp)

theorem tailMatch_exact (A B C D T E : Str)
    (hA : ∀ c ∈ A, Char.isDigit c = true) (hB : ∀ c ∈ B, Char.isDigit c = true)
    (hC : ∀ c ∈ C, Char.isDigit c = true) (hD : ∀ c ∈ D, Char.isDigit c = true)
    (hT : ∀ c ∈ T, (c != '.') = true) (hEd : ∀ c ∈ E, regexDot c = true) :
    tailMatch (A ++ '.' :: (B ++ '.' :: (C ++ '-' :: (D ++ '-' :: (T ++ '.' :: E)))))
      = some ⟨A, B, C, D, T, E⟩ := by
  rw [tailMatch, spanThen_exact _ hA (by decide)]
  simp only [Option.bind]
  rw [spanThen_exact _ hB (by decide)]
  simp only [Option.bind]
  rw [spanThen_exact _ hC (by decide)]
  simp only [Option.bind]
  rw [spanThen_exact _ hD (by decide)]
  simp only [Option.bind]
  rw [spanThen_exact _ hT (by decide)]
  simp only [Option.bind]
  rw [if_pos (List.all_eq_true.mpr hEd)]

theorem tailMatch_none_digits_dash (D rest : Str)
    (hD : ∀ c ∈ D, Char.isDigit c = true) :
    tailMatch (D ++ '-' :: rest) = none := by
  rw [tailMatch, spanThen_stopfail '-' rest hD (by decide) (by decide)]
  rfl

theorem noHyphen_spanThen_dash {r : Str} (h : ∀ c ∈ r, c ≠ '-') :
    spanThen Char.isDigit '-' r = none := by
  rw [spanThen, span]
  cases hd : r.dropWhile Char.isDigit with
  | nil => rfl
  | cons y t =>
    have hy : y ≠ '-' := h y (List.dropWhile_subset _ (hd ▸ List.mem_cons_self y t))
    dsimp only
    rw [if_neg hy]

theorem firstNonP (p : Char → Bool) :
    ∀ (U : Str), (¬ ∀ c ∈ U, p c = true) →
      ∃ U1 y U2, U = U1 ++ y :: U2 ∧ (∀ c ∈ U1, p c = true) ∧ p y = false := by
  intro U
  induction U with
  | nil => intro h; exact absurd (by simp) h
  | cons a as ih =>
    intro h
    by_cases hpa : p a = true
    · have has : ¬ ∀ c ∈ as, p c = true := by
        intro hall
        refine h ?_
        intro c hc
        rcases List.mem_cons.mp hc with hc | hc
        · subst hc; exact hpa
        · exact hall c hc
      obtain ⟨U1, y, U2, hd, h1, h2⟩ := ih has
      refine ⟨a :: U1, y, U2, by rw [hd]; rfl, ?_, h2⟩
      intro c hc
      rcases List.mem_cons.mp hc with hc | hc
      · subst hc; exact hpa
      · exact h1 c hc
    · exact ⟨[], a, as, rfl, by simp, by simpa using hpa⟩

theorem tailMatch_none_dotfree (U E : Str) (hU : ∀ c ∈ U, c ≠ '.')
    (hE : ∀ c ∈ E, c ≠ '-') :
    tailMatch (U ++ '.' :: E) = none := by
  by_cases hUd : ∀ c ∈ U, Char.isDigit c = true
  · rw [tailMatch, spanThen_exact E hUd (by decide)]
    simp only [Option.bind]
    cases h2 : spanThen Char.isDigit '.' E with
    | none => rfl
    | some pr =>
      obtain ⟨b, r2⟩ := pr
      have hsub := spanThen_rest_subset h2
      simp only [Option.bind]
      rw [noHyphen_spanThen_dash fun c hc => hE c (hsub c hc)]
  · obtain ⟨U1, y, U2, hdec, hU1, hy⟩ := firstNonP Char.isDigit U hUd
    have hyne : y ≠ '.' := hU y (by rw [hdec]; exact List.mem_append_right U1 (List.mem_cons_self y U2))
    rw [hdec, List.append_assoc, List.cons_append]
    rw [tailMatch, spanThen_stopfail y (U2 ++ '.' :: E) hU1 hy hyne]
    rfl

theorem man_cons_nondash {c : Char} {rest : Str} (hc : c ≠ '-')
    (h : matchArtifactName rest = none) : matchArtifactName (c :: rest) = none := by
  by_cases hdot : regexDot c = true
  · rw [matchArtifactName, if_pos hdot, h]
    dsimp only
    rw [if_neg hc]
  · rw [matchArtifactName, if_neg hdot]

theorem man_noDash : ∀ {l : Str}, (∀ c ∈ l, c ≠ '-') → matchArtifactName l = none := by
  intro l
  induction l with
  | nil => intro _; rfl
  | cons a as ih =>
    intro h
    exact man_cons_nondash (h a (List.mem_cons_self a as))
      (ih fun c hc => h c (List.mem_cons_of_mem a hc))

theorem man_append_nondash {X Y : Str} (hX : ∀ c ∈ X, c ≠ '-')
    (h : matchArtifactName Y = none) : matchArtifactName (X ++ Y) = none := by
  induction X with
  | nil => exact h
  | cons a as ih =>
    exact man_cons_nondash (hX a (List.mem_cons_self a as))
      (ih fun c hc => hX c (List.mem_cons_of_mem a hc))

theorem man_dash_cons {Q : Str} (h1 : matchArtifactName Q = none)
    (h2 : tailMatch Q = none) : matchArtifactName ('-' :: Q) = none := by
  rw [matchArtifactName, if_pos (show regexDot '-' = true by decide), h1]
  dsimp only
  rw [if_pos rfl, h2]
  rfl

theorem man_dash_success {Q : Str} {caps : ArtifactCaps}
    (h1 : matchArtifactName Q = none) (h2 : tailMatch Q = some caps) :
    matchArtifactName ('-' :: Q) = some ([], caps) := by
  rw [matchArtifactName, if_pos (show regexDot '-' = true by decide), h1]
  dsimp only
  rw [if_pos rfl, h2]
  rfl

theorem man_cons_some {c : Char} {l p : Str} {caps : ArtifactCaps}
    (hdot : regexDot c = true) (h : matchArtifactName l = some (p, caps)) :
    matchArtifactName (c :: l) = some (c :: p, caps) := by
  rw [matchArtifactName, if_pos hdot, h]

theorem man_append_some (X : Str) {l p : Str} {caps : ArtifactCaps}
    (hX : ∀ c ∈ X, regexDot c = true)
    (h : matchArtifactName l = some (p, caps)) :
    matchArtifactName (X ++ l) = some (X ++ p, caps) := by
  induction X with
  | nil => exact h
  | cons a as ih =>
    exact man_cons_some (hX a (List.mem_cons_self a as))
      (ih fun c hc => hX c (List.mem_cons_of_mem a hc))

theorem man_none_dotfree_tail (T E : Str) (hT : ∀ c ∈ T, c ≠ '.')
    (hE : ∀ c ∈ E, c ≠ '-') :
    matchArtifactName (T ++ '.' :: E) = none := by
  induction T with
  | nil => exact man_cons_nondash (by decide) (man_noDash hE)
  | cons a T2 ih =>
    have hT2 : ∀ c ∈ T2, c ≠ '.' := fun c hc => hT c (List.mem_cons_of_mem a hc)
    have ih2 := ih hT2
    by_cases ha : a = '-'
    · subst ha
      exact man_dash_cons ih2 (tailMatch_none_dotfree T2 E hT2 hE)
    · exact man_cons_nondash ha ih2

theorem man_none_wellformed (A B C D T E : Str)
    (hA : ∀ c ∈ A, Char.isDigit c = true) (hB : ∀ c ∈ B, Char.isDigit c = true)
    (hC : ∀ c ∈ C, Char.isDigit c = true) (hD : ∀ c ∈ D, Char.isDigit c = true)
    (hT : ∀ c ∈ T, c ≠ '.') (hE : ∀ c ∈ E, c ≠ '-') :
    matchArtifactName
      (A ++ '.' :: (B ++ '.' :: (C ++ '-' :: (D ++ '-' :: (T ++ '.' :: E))))) = none := by
  have dig_nd : ∀ {X : Str}, (∀ c ∈ X, Char.isDigit c = true) → ∀ c ∈ X, c ≠ '-' :=
    fun hX c hc => (digit_not_dash_dot (hX c hc)).1
  have w0 : matchArtifactName (T ++ '.' :: E) = none := man_none_dotfree_tail T E hT hE
  have w1 : matchArtifactName ('-' :: (T ++ '.' :: E)) = none :=
    man_dash_cons w0 (tailMatch_none_dotfree T E hT hE)
  have w2 : matchArtifactName (D ++ '-' :: (T ++ '.' :: E)) = none :=
    man_append_nondash (dig_nd hD) w1
  have w3 : matchArtifactName ('-' :: (D ++ '-' :: (T ++ '.' :: E))) = none :=
    man_dash_cons w2 (tailMatch_none_digits_dash D _ hD)
  have w4 : matchArtifactName (C ++ '-' :: (D ++ '-' :: (T ++ '.' :: E))) = none :=
    man_append_nondash (dig_nd hC) w3
  have w5 : matchArtifactName ('.' :: (C ++ '-' :: (D ++ '-' :: (T ++ '.' :: E)))) = none :=
    man_cons_nondash (by decide) w4
  have w6 : matchArtifactName (B ++ '.' :: (C ++ '-' :: (D ++ '-' :: (T ++ '.' :: E)))) = none :=
    man_append_nondash (dig_nd hB) w5
  have w7 : matchArtifactName
      ('.' :: (B ++ '.' :: (C ++ '-' :: (D ++ '-' :: (T ++ '.' :: E))))) = none :=
    man_cons_nondash (by decide) w6
  exact man_append_nondash (dig_nd hA) w7

theorem matchArtifactName_format (name T E : Str) (v : Version)
    (hN : ∀ c ∈ name, regexDot c = true)
    (hT : ∀ c ∈ T, c ≠ '.') (hE : ∀ c ∈ E, c ≠ '-')
    (hEd : ∀ c ∈ E, regexDot c = true) :
    matchArtifactName (formatArtifactName name v T E) =
      some (name, ⟨natDigits v.major, natDigits v.minor, natDigits v.patch,
        natDigits v.rev, T, E⟩) := by
  have hT2 : ∀ c ∈ T, (c != '.') = true := fun c hc => by
    simpa [bne_iff_ne] using hT c hc
  have hQn := man_none_wellformed (natDigits v.major) (natDigits v.minor)
    (natDigits v.patch) (natDigits v.rev) T E
    natDigits_digits natDigits_digits natDigits_digits natDigits_digits hT hE
  have hQs := tailMatch_exact (natDigits v.major) (natDigits v.minor)
    (natDigits v.patch) (natDigits v.rev) T E
    natDigits_digits natDigits_digits natDigits_digits natDigits_digits hT2 hEd
  have base := man_dash_success hQn hQs
  have step := man_append_some name hN base
  rw [formatArtifactName]
  rw [step]
  rw [List.append_nil]

/-- C10 (amended): formatting `<name>-<maj>.<min>.<pat>-<rev>-<target>.<ext>`
and parsing it back recovers the version 4-tuple (indeed the whole content)
for every *line-terminator-free* name, every dot-free target, and every
extension free of hyphens and line terminators.  With a hyphen in the
extension the greedy name group can shift the match (see the
counterexample), and a line terminator in the name or the extension makes
the regex fail outright, since JS `.` does not match line terminators. -/
theorem parse_format_roundTrip (name T E : Str) (v : Version)
    (hN : ∀ c ∈ name, regexDot c = true)
    (hT : ∀ c ∈ T, c ≠ '.') (hE : ∀ c ∈ E, c ≠ '-')
    (hEd : ∀ c ∈ E, regexDot c = true) :
    parseContentFrom (formatArtifactName name v T E) = .ok (some ⟨name, v, T, E⟩) := by
  have eAll : ∀ n : Nat, parseIntSafe (natDigits n) = .ok n := fun n => by
    rw [parseIntSafe_digitRun natDigits_digits natDigits_ne_nil, digitsToNat_natDigits]
  rw [parseContentFrom, matchArtifactName_format name T E v hN hT hE hEd]
  simp only [eAll, bind, Except.bind]

/-- C10 (counterexample): with an extension containing hyphens the
round-trip fails: formatting `("n", (1,2,3,4), "t", "-9.8.7-6-x.y")` — a
dot-free target, as the claim requires — parses back with the *different*
version tuple `(9,8,7,6)` (the greedy name group swallows the real version
block).  The second conjunct shows the recovered tuple differs from the
formatted one. -/
theorem roundTrip_counterexample :
    parseContentFrom (formatArtifactName "n".toList ⟨1, 2, 3, 4⟩ "t".toList
        "-9.8.7-6-x.y".toList) =
      .ok (some ⟨"n-1.2.3-4-t.".toList, ⟨9, 8, 7, 6⟩, "x".toList, "y".toList⟩) ∧
    (⟨9, 8, 7, 6⟩ : Version) ≠ ⟨1, 2, 3, 4⟩ := by
  exact ⟨by decide, by decide⟩

/-- Witness for C10's amended theorem at
`("gcc", (14,2,0,1), "any", "pkg.tar.zst")`. -/
theorem parse_format_roundTrip_witness :
    ((∀ c ∈ "gcc".toList, regexDot c = true) ∧ (∀ c ∈ "any".toList, c ≠ '.') ∧
      (∀ c ∈ "pkg.tar.zst".toList, c ≠ '-') ∧
      (∀ c ∈ "pkg.tar.zst".toList, regexDot c = true)) ∧
    parseContentFrom (formatArtifactName "gcc".toList ⟨14, 2, 0, 1⟩ "any".toList
        "pkg.tar.zst".toList) =
      .ok (some ⟨"gcc".toList, ⟨14, 2, 0, 1⟩, "any".toList, "pkg.tar.zst".toList⟩) :=
  ⟨⟨by decide, by decide, by decide, by decide⟩,
   parse_format_roundTrip "gcc".toList "any".toList "pkg.tar.zst".toList ⟨14, 2, 0, 1⟩
     (by decide) (by decide) (by decide) (by decide)⟩

end MsysPin
